import Mathlib

/-!
Verification development for the spreadsheet-to-documents pipeline of
`streamlit_app.py` (Excel roster → per-student documents).

The Python source is shallowly embedded below.  Cells of the pandas raw grid
are modelled by `Cell` (missing/NaN, string, or other scalar rendered by
`str`).  Strings are processed as `List Char`; Python regular expressions used
by the source (`TAG_PR_IN_RE`, `EXTRA_SEP_RE`, `ACH_LVL_COL_RE`,
`ACH_LVL_VAL_RE`, `FINAL_CLASS_RE`, `HAS_12_RE`, the year pattern) are
translated into explicit character-level scanners with the same semantics on
the character repertoire the application handles (ASCII plus the Lithuanian
letters ą č ę ė į š ų ū ž and their capitals).  Python's `\w` (`\b`) is
modelled by `wordChar`: ASCII alphanumerics, underscore and the Lithuanian
letters; `\s` and `str.strip()` whitespace by `isWs` (space, tab, newline,
carriage return, form feed, vertical tab).

pandas-specific behaviour that the embedding reproduces:
 * grids read with `header=None` are rectangular, short rows being padded
   with NaN — `cellAt` returns `Cell.empty` outside a row;
 * `str(...)` of a NaN cell is `"nan"` (`cellToStr`);
 * `DataFrame.dropna(how="all")`, boolean-mask row filtering and column
   selection are modelled positionally.  Column selection by label in the
   source (`data[keep_cols]`, `row[col]`, `df["Pavardė, vardas"]`) agrees
   with the positional model when column labels are pairwise distinct; with
   duplicated labels pandas raises (the surrounding `try/except` then aborts
   the batch), so the positional model covers exactly the runs that produce
   a table.
-/

/-- Whitespace characters recognised by Python's `str.strip()` and `\s`
(restricted to ASCII, which is all the application manipulates). -/
def isWs (c : Char) : Bool :=
  c = ' ' || c = '\t' || c = '\n' || c = '\x0d' || c = '\x0c' || c = '\x0b'

/-- The Lithuanian letters (lower case) that occur in the application's data. -/
def lithLower : List Char := ['ą', 'č', 'ę', 'ė', 'į', 'š', 'ų', 'ū', 'ž']

/-- The Lithuanian capital letters. -/
def lithUpper : List Char := ['Ą', 'Č', 'Ę', 'Ė', 'Į', 'Š', 'Ų', 'Ū', 'Ž']

/-- Python `str.lower()` on the repertoire handled by the application:
ASCII letters and Lithuanian letters. -/
def toLowerLt (c : Char) : Char :=
  if c = 'Ą' then 'ą' else if c = 'Č' then 'č' else if c = 'Ę' then 'ę'
  else if c = 'Ė' then 'ė' else if c = 'Į' then 'į' else if c = 'Š' then 'š'
  else if c = 'Ų' then 'ų' else if c = 'Ū' then 'ū' else if c = 'Ž' then 'ž'
  else c.toLower

/-- Python `\w` (word character) on the application's repertoire: ASCII
alphanumerics, underscore, Lithuanian letters. -/
def wordChar (c : Char) : Bool :=
  c.isAlphanum || c = '_' || lithLower.contains c || lithUpper.contains c

/-- The separator characters (space, parentheses, brackets, braces, hyphen,
slash, pipe, comma, semicolon, period) stripped at the ends by the `strip`
call of `clean_value_remove_tags`. -/
def isSep (c : Char) : Bool :=
  c = ' ' || c = '(' || c = ')' || c = '[' || c = ']' || c = '{' || c = '}' ||
  c = '-' || c = '/' || c = '|' || c = ',' || c = ';' || c = '.'

/-- Remove the trailing run of characters satisfying `p`
(the right half of Python's `str.strip`). -/
def rstripP (p : Char → Bool) : List Char → List Char
  | [] => []
  | a :: t =>
    let r := rstripP p t
    if r.isEmpty && p a then [] else a :: r

/-- Python `str.strip()` (no argument): drop whitespace at both ends. -/
def stripWs (l : List Char) : List Char := rstripP isWs (l.dropWhile isWs)

/-- The separator-stripping `strip` call of `clean_value_remove_tags`: drop
`isSep` characters at both ends. -/
def stripSep (l : List Char) : List Char := rstripP isSep (l.dropWhile isSep)

/-- One step of `collapseWs` (processing from the right): a whitespace
character followed by a whitespace character merges into a single space. -/
def collapseStep (c : Char) (acc : List Char) : List Char :=
  if isWs c then
    match acc with
    | [] => [c]
    | d :: rest => if isWs d then ' ' :: rest else c :: d :: rest
  else c :: acc

/-- Python `re.sub(r"\s{2,}", " ", s)`: every maximal run of two or more
whitespace characters becomes a single space; lone whitespace characters are
kept as they are. -/
def collapseWs (l : List Char) : List Char := l.foldr collapseStep []

/-- Boundary test used for `\b` on the left of a token: true at the start of
the string or after a non-word character. -/
def nonWordOpt : Option Char → Bool
  | none => true
  | some c => !wordChar c

/-- Boundary test used for `\b` on the right of a token: true at the end of
the string or before a non-word character. -/
def nonWordHead : List Char → Bool
  | [] => true
  | c :: _ => !wordChar c

/-- Does the two-character token `a`,`b` spell PR or IN case-insensitively
(the alternatives of `TAG_PR_IN_RE`)? -/
def isTagPair (a b : Char) : Bool :=
  ((a = 'p' || a = 'P') && (b = 'r' || b = 'R')) ||
  ((a = 'i' || a = 'I') && (b = 'n' || b = 'N'))

/-- Is there a `(?i)\b(?:PR|IN)\b` match at the current position, whose
previous character is `p`, first two characters `a`,`b` and remainder `t`? -/
def tagHere (p : Option Char) (a b : Char) (t : List Char) : Bool :=
  isTagPair a b && nonWordOpt p && nonWordHead t

/-- `TAG_PR_IN_RE.sub("", s)`: delete every standalone PR/IN token.  `p` is
the character preceding the current scan position in the original string
(`none` at the start); like Python's `re.sub`, after a match the scan resumes
after the matched characters, so word boundaries are judged against the
original string. -/
def tagSub : Option Char → List Char → List Char
  | _, [] => []
  | _, [a] => [a]
  | p, a :: b :: t =>
    if tagHere p a b t then tagSub (some b) t
    else a :: tagSub (some a) (b :: t)

/-- `TAG_PR_IN_RE.search(s) is not None`, scanning with previous character
`p`: does the string contain a standalone PR/IN token? -/
def hasTag : Option Char → List Char → Bool
  | _, [] => false
  | _, [_] => false
  | p, a :: b :: t => tagHere p a b t || hasTag (some a) (b :: t)

/-- `clean_value_remove_tags` from the source: strip, delete standalone
PR/IN tokens, collapse whitespace runs, strip separator characters at the
ends, collapse whitespace runs again and strip.  (`EXTRA_SEP_RE` is defined
in the source but never applied.) -/
def clean_value_remove_tags (x : String) : String :=
  let s := stripWs x.data
  if s.isEmpty then ""
  else
    let s1 := tagSub none s
    let s2 := collapseWs s1
    let s3 := stripSep s2
    let s4 := collapseWs s3
    String.mk (stripWs s4)

/-- Substring test: does `h` contain `n` as a contiguous substring
(Python's `in` on strings)? -/
def containsSub (n h : List Char) : Bool :=
  (List.range (h.length + 1)).any fun i => n.isPrefixOf (h.drop i)

/-- Lower-case a whole character list. -/
def toLowerLtList (l : List Char) : List Char := l.map toLowerLt

/-- Python `str.strip()` packaged on `String`. -/
def pyStripStr (s : String) : String := String.mk (stripWs s.data)

/-- Python `str.lower()` packaged on `String`. -/
def toLowerLtStr (s : String) : String := String.mk (toLowerLtList s.data)

/-- Has the character list only plain spaces as whitespace (no tab, newline,
...)?  Inputs of this shape are the domain on which the cleaner is
idempotent. -/
def onlySpaceWs (l : List Char) : Bool := l.all fun c => !isWs c || c = ' '

/-- No two adjacent whitespace characters. -/
def noAdjWs : List Char → Bool
  | [] => true
  | [_] => true
  | a :: b :: t => (!(isWs a && isWs b)) && noAdjWs (b :: t)

/-- A raw spreadsheet cell: missing (NaN), a string, or some other scalar
(number, date, ...) of which only the `str(...)` rendering `s` matters to the
pipeline. -/
inductive Cell : Type
  | empty : Cell
  | text : String → Cell
  | other : String → Cell
deriving DecidableEq, Repr

/-- `pd.isna` on a cell. -/
def Cell.isNA : Cell → Bool
  | Cell.empty => true
  | _ => false

/-- Python `str(...)` of a cell value; `str` of NaN is `"nan"`. -/
def cellToStr : Cell → String
  | Cell.empty => "nan"
  | Cell.text s => s
  | Cell.other s => s

/-- The guarded conversion `str(c).strip() if pd.notna(c) else ""` used by
`find_header_rows`, before `.lower()` and without the strip applied yet. -/
def strOfNotna : Cell → String
  | Cell.empty => ""
  | Cell.text s => s
  | Cell.other s => s

/-- The raw grid (`df0 = pd.read_excel(..., header=None)`): a list of rows. -/
def Grid : Type := List (List Cell)

/-- Number of columns of the grid (pandas pads short rows with NaN up to the
widest row). -/
def width (g : Grid) : Nat := g.foldr (fun r acc => max r.length acc) 0

/-- `df0.iat[r, c]`, with NaN for positions a short row does not reach. -/
def cellAt (g : Grid) (r c : Nat) : Cell := (g.getD r []).getD c Cell.empty

/-- Row `r` of the grid truncated/padded to `n` cells
(`df0.iloc[r, :n]` on the NaN-padded rectangular frame). -/
def rowAt (g : Grid) (r n : Nat) : List Cell := (List.range n).map (cellAt g r)

/-- The cells of the 12 × 12 metadata scan window, in row-major order. -/
def windowCells (g : Grid) : List Cell :=
  (List.range (min 12 g.length)).flatMap fun r =>
    (List.range (min 12 (width g))).map fun c => cellAt g r c

/-- Text after the first colon (`txt.split(":", 1)[1]`). -/
def afterColon (l : List Char) : List Char := (l.dropWhile (fun c => c != ':')).drop 1

/-- Text before the first colon (`txt.split(":", 1)[0]`). -/
def beforeColon (l : List Char) : List Char := l.takeWhile (fun c => c != ':')

/-- The loop body of `try_extract_school_and_class`, folded over the scan
window with the `(mokykla, klase)` accumulator; a later matching cell
overwrites an earlier one. -/
def schoolClassGo : List Cell → String × String → String × String
  | [], acc => acc
  | c :: rest, (mok, kla) =>
    match c with
    | Cell.text s =>
      let txt := stripWs s.data
      let low := toLowerLtList txt
      let mok' := if containsSub "mokykla".data low && txt.contains ':'
                  then String.mk (stripWs (afterColon txt)) else mok
      let kla' := if (containsSub "klasė".data low || containsSub "klase".data low)
                      && txt.contains ':'
                  then String.mk (stripWs (afterColon txt)) else kla
      schoolClassGo rest (mok', kla')
    | _ => schoolClassGo rest (mok, kla)

/-- `try_extract_school_and_class(df_raw)` from the source. -/
def try_extract_school_and_class (g : Grid) : String × String :=
  schoolClassGo (windowCells g) ("", "")

/-- Capture function stated from the spec's words (with the containment
condition amended to what the code checks): a string cell whose whole text
contains "mokykla" case-insensitively and contains a colon captures the
trimmed text after the first colon as the institution. -/
def specSchoolCapture : Cell → Option String
  | Cell.text s =>
    let txt := stripWs s.data
    if containsSub "mokykla".data (toLowerLtList txt) && txt.contains ':'
    then some (String.mk (stripWs (afterColon txt))) else none
  | _ => none

/-- Capture function for the class label, analogous to `specSchoolCapture`
("klasė" or "klase" anywhere in the text). -/
def specClassCapture : Cell → Option String
  | Cell.text s =>
    let txt := stripWs s.data
    if (containsSub "klasė".data (toLowerLtList txt)
        || containsSub "klase".data (toLowerLtList txt)) && txt.contains ':'
    then some (String.mk (stripWs (afterColon txt))) else none
  | _ => none

/-- Attempt to match the year-range pattern of `pat_years`
(`(20\d\d)\s*[–-]\s*(20\d\d)` with the dash being hyphen or en-dash) at the
head of the list; returns the two captured year groups. -/
def parseYearsAt (l : List Char) : Option (String × String) :=
  match l with
  | '2' :: '0' :: d1 :: d2 :: rest =>
    if d1.isDigit && d2.isDigit then
      match rest.dropWhile isWs with
      | dash :: r2 =>
        if dash = '-' || dash = '–' then
          match r2.dropWhile isWs with
          | '2' :: '0' :: e1 :: e2 :: _ =>
            if e1.isDigit && e2.isDigit then
              some (String.mk ['2', '0', d1, d2], String.mk ['2', '0', e1, e2])
            else none
          | _ => none
        else none
      | [] => none
    else none
  | _ => none

/-- `pat_years.search(txt)`: leftmost match of the year-range pattern. -/
def patSearch : List Char → Option (String × String)
  | [] => none
  | a :: t =>
    match parseYearsAt (a :: t) with
    | some p => some p
    | none => patSearch t

/-- The loop of `try_extract_academic_year`, folded over the scan window with
the fallback `candidate` accumulator.  A pattern match returns immediately;
a cell containing "mokslo metai" only updates the candidate. -/
def yearGo : List Cell → String → String
  | [], cand => cand
  | c :: rest, cand =>
    match c with
    | Cell.text s =>
      let txt := stripWs s.data
      match patSearch txt with
      | some p => p.1 ++ "–" ++ p.2
      | none =>
        if containsSub "mokslo metai".data (toLowerLtList txt) then
          match patSearch txt with
          | some p => p.1 ++ "–" ++ p.2
          | none => yearGo rest (String.mk txt)
        else yearGo rest cand
    | _ => yearGo rest cand

/-- `try_extract_academic_year(df_raw)` from the source. -/
def try_extract_academic_year (g : Grid) : String :=
  yearGo (windowCells g) ""

/-- The formatted year range of a cell, if the cell is a string whose text
matches the year-range pattern — stated from the spec's words. -/
def specYearCapture : Cell → Option String
  | Cell.text s =>
    (patSearch (stripWs s.data)).map fun p => p.1 ++ "–" ++ p.2
  | _ => none

/-- The fallback candidate of a cell: its trimmed text when it contains
"mokslo metai" case-insensitively — stated from the spec's words. -/
def specYearFallback : Cell → Option String
  | Cell.text s =>
    let txt := stripWs s.data
    if containsSub "mokslo metai".data (toLowerLtList txt)
    then some (String.mk txt) else none
  | _ => none

/-- Academic-year extraction stated from the spec's words: the first cell in
scan order matching the year pattern wins; otherwise the last cell containing
"mokslo metai" wins; otherwise the empty string. -/
def specAcademicYear (cells : List Cell) : String :=
  match (cells.filterMap specYearCapture).head? with
  | some y => y
  | none => ((cells.filterMap specYearFallback).getLast?).getD ""

/-- The header-row condition of `find_header_rows` at row `i`: column 0
(trimmed, lower-cased; empty for NaN) starts with "eil" and column 1 contains
"pavard" or "vard". -/
def headerPred (g : Grid) (i : Nat) : Bool :=
  let c0s := toLowerLtList (stripWs (strOfNotna (cellAt g i 0)).data)
  let c1s := toLowerLtList (stripWs (strOfNotna (cellAt g i 1)).data)
  "eil".data.isPrefixOf c0s &&
  (containsSub "pavard".data c1s || containsSub "vard".data c1s)

/-- `find_header_rows(df0)`: the first row within the first
`min(40, len(df0))` rows satisfying `headerPred`; returns
`(header_row, subjects_row)` with `subjects_row = header_row + 1`. -/
def find_header_rows (g : Grid) : Option (Nat × Nat) :=
  ((List.range (min 40 g.length)).find? (headerPred g)).map fun i => (i, i + 1)

/-- Python `int(s)` succeeds on the (already stripped) text: an optional
sign followed by one or more ASCII digits. -/
def pyIntParses (l : List Char) : Bool :=
  let t := match l with
           | '+' :: r => r
           | '-' :: r => r
           | r => r
  !t.isEmpty && t.all Char.isDigit

/-- The data-start condition of `parse_excel_to_df` at row `r`: column 0 is
present and its stripped `str` rendering parses as an integer. -/
def dataRowPred (g : Grid) (r : Nat) : Bool :=
  match cellAt g r 0 with
  | Cell.empty => false
  | c => pyIntParses (stripWs (cellToStr c).data)

/-- The first data row: starting at `subjects_row + 1`, the first row whose
column-0 value parses as an integer; `len(df0)` if none exists. -/
def dataStart (g : Grid) (sr : Nat) : Nat :=
  match (List.range' (sr + 1) (g.length - (sr + 1))).find? (dataRowPred g) with
  | some r => r
  | none => g.length

/-- Column naming of `parse_excel_to_df`: the two fixed identity columns,
then for every further column index `j` the trimmed cell at
`(subjects_row, j)`, with `Dalykas_<j-1>` synthesized when that cell is
missing or blank. -/
def buildColumns (g : Grid) (sr : Nat) : List String :=
  ["Eil. Nr.", "Pavardė, vardas"] ++
    (List.range' 2 (width g - 2)).map fun j =>
      let s := stripWs (strOfNotna (cellAt g sr j)).data
      if s.isEmpty then "Dalykas_" ++ toString (j - 1) else String.mk s

/-- The structured student table: column names and rows (each row has one
cell per column). -/
structure Table : Type where
  cols : List String
  rows : List (List Cell)
deriving DecidableEq, Repr

/-- The fixed identity column names. -/
def fixedCols : List String := ["Eil. Nr.", "Pavardė, vardas"]

/-- The column-pruning index list of `parse_excel_to_df` (`keep_cols`):
columns 0 and 1, then every further column that is not named like a fixed
column and has at least one present value in the remaining rows. -/
def keepIdx (cols : List String) (rows : List (List Cell)) : List Nat :=
  [0, 1] ++ (List.range' 2 (cols.length - 2)).filter fun j =>
    !(fixedCols.contains (cols.getD j "")) &&
    rows.any fun r => !(r.getD j Cell.empty).isNA

/-- `parse_excel_to_df` (table part): locate the header, name the columns,
find the data start, slice the data rows, drop all-NaN rows, drop rows with
a missing full name, and prune subject columns with no present value.
Raises (returns an error) when no header row is found. -/
def parse_excel_to_df (g : Grid) : Except String Table :=
  match find_header_rows g with
  | none => Except.error "Nerasta antraštės eilutė: turi būti Eil. Nr. ir Pavardė, vardas."
  | some (_, sr) =>
    let cols := buildColumns g sr
    let ds := dataStart g sr
    let rows0 := (List.range' ds (g.length - ds)).map fun r => rowAt g r cols.length
    let rows1 := rows0.filter fun r => r.any fun c => !c.isNA
    let rows2 := rows1.filter fun r => !(r.getD 1 Cell.empty).isNA
    let ki := keepIdx cols rows2
    Except.ok ⟨ki.map fun j => cols.getD j "",
               rows2.map fun r => ki.map fun j => r.getD j Cell.empty⟩

/-- `ACH_LVL_COL_RE.search(name)`: the name contains, case-insensitively,
"pasiek" followed by word characters, optional whitespace, and "lyg"
(`pasiek\w*\s*lyg\w*`; the trailing `\w*` never affects whether a match
exists). -/
def achColMatch (l : List Char) : Bool :=
  let low := toLowerLtList l
  (List.range (low.length + 1)).any fun p =>
    "pasiek".data.isPrefixOf (low.drop p) &&
    (let t := (low.drop p).drop 6
     (List.range (t.length + 1)).any fun k =>
       (t.take k).all wordChar &&
       "lyg".data.isPrefixOf ((t.drop k).dropWhile isWs))

/-- `strip_accents_lower` from the source: decompose, drop combining marks,
lower-case, strip — realised per character on the application's repertoire
(Lithuanian letters lose their diacritic, ASCII is lower-cased). -/
def deaccent (c : Char) : Char :=
  if c = 'ą' then 'a' else if c = 'č' then 'c' else if c = 'ę' then 'e'
  else if c = 'ė' then 'e' else if c = 'į' then 'i' else if c = 'š' then 's'
  else if c = 'ų' then 'u' else if c = 'ū' then 'u' else if c = 'ž' then 'z'
  else if c = 'Ą' then 'A' else if c = 'Č' then 'C' else if c = 'Ę' then 'E'
  else if c = 'Ė' then 'E' else if c = 'Į' then 'I' else if c = 'Š' then 'S'
  else if c = 'Ų' then 'U' else if c = 'Ū' then 'U' else if c = 'Ž' then 'Z'
  else c

/-- `strip_accents_lower(s)` packaged on `String`. -/
def stripAccentsLower (s : String) : String :=
  String.mk (stripWs (toLowerLtList (s.data.map deaccent)))

/-- The post-parse filters of `main`: drop columns whose name matches
`ACH_LVL_COL_RE`, then drop rows whose normalized full name equals the
normalized "Klasės pažangumas". -/
def postFilter (t : Table) : Table :=
  let ki := (List.range t.cols.length).filter fun j => !achColMatch (t.cols.getD j "").data
  let cols := ki.map fun j => t.cols.getD j ""
  let rows := t.rows.map fun r => ki.map fun j => r.getD j Cell.empty
  ⟨cols, rows.filter fun r =>
    stripAccentsLower (cellToStr (r.getD 1 Cell.empty)) != stripAccentsLower "Klasės pažangumas"⟩

/-- The final StudentTable: `parse_excel_to_df` followed by the post-parse
filters of `main`. -/
def mainTable (g : Grid) : Except String Table :=
  (parse_excel_to_df g).map postFilter

/-- Replacement of one display-name character by the filename-sanitising
`.replace` chain of the zip loop: `?` and `"` are removed, `<`/`>` become
`(`/`)`, the other unsafe characters become `-`.  (The chain is sequential
in the source, but no replacement output is itself replaced later, so it
acts per character.) -/
def sanChar (c : Char) : Option Char :=
  if c = '/' then some '-' else if c = '\\' then some '-'
  else if c = ':' then some '-' else if c = '*' then some '-'
  else if c = '?' then none else if c = '"' then none
  else if c = '<' then some '(' else if c = '>' then some ')'
  else if c = '|' then some '-' else some c

/-- The sanitised document base name (`safe_name`). -/
def sanitizeName (s : String) : String := String.mk (s.data.filterMap sanChar)

/-- The nine filesystem-unsafe characters. -/
def unsafeChars : List Char := ['/', '\\', ':', '*', '?', '"', '<', '>', '|']

/-- The trimmed display name of a row
(`str(row.get("Pavardė, vardas", "")).strip()`). -/
def rowName (r : List Cell) : String := pyStripStr (cellToStr (r.getD 1 Cell.empty))

/-- The emit-time guards of the zip loop: the trimmed name is non-empty, not
the literal "nan" case-insensitively, and not the summary phrase. -/
def emitOk (r : List Cell) : Bool :=
  let nm := rowName r
  !(nm = "") && !(toLowerLtStr nm = "nan") &&
  !(stripAccentsLower nm = stripAccentsLower "Klasės pažangumas")

/-- The zip-generation loop of `main`, reduced to the archive member names:
one `<safe_name>.pdf` entry per row passing the emit-time guards. -/
def archiveNames (t : Table) : List String :=
  t.rows.filterMap fun r =>
    if emitOk r then some (sanitizeName (rowName r) ++ ".pdf") else none

/-- The whole batch pipeline as observed through the produced archive:
parsing and filtering, the empty-table check, then the zip loop.  An error
means no archive is produced. -/
def runPipeline (g : Grid) : Except String (List String) :=
  match mainTable g with
  | Except.error e => Except.error e
  | Except.ok t =>
    if t.rows.isEmpty then Except.error "Nerasta duomenų eilučių su mokinių vardais."
    else Except.ok (archiveNames t)

/-- `FINAL_CLASS_RE.match(k)`: whole-string match of
`(?i)^\s*IV\s*[A-ZĄČĘĖĮŠŲŪŽ]?\s*$` (with `(?i)` the letter class also admits
the lower-case letters). -/
def finalClassMatch (l : List Char) : Bool :=
  match l.dropWhile isWs with
  | c1 :: c2 :: r =>
    toLowerLt c1 = 'i' && toLowerLt c2 = 'v' &&
    (match r.dropWhile isWs with
     | [] => true
     | c :: r2 =>
       (c.isAlpha || lithLower.contains c || lithUpper.contains c) &&
       (r2.dropWhile isWs).isEmpty)
  | _ => false

/-- `HAS_12_RE.search(k)`: the text contains "12" as a word-bounded token;
`p` is the previous character of the scan. -/
def has12 : Option Char → List Char → Bool
  | _, [] => false
  | _, [_] => false
  | p, a :: b :: t => ((a = '1' && b = '2') && nonWordOpt p && nonWordHead t) || has12 (some a) (b :: t)

/-- `is_final_class(klase)` from the source; `none` models a non-string
input. -/
def is_final_class : Option String → Bool
  | none => false
  | some k =>
    let s := stripWs k.data
    if finalClassMatch s then true
    else if has12 none s then true
    else false

/-- `ACH_LVL_VAL_RE.search(sv)`: the text starts, case-insensitively, with
one of the four achievement-level names followed by a word boundary. -/
def achValMatch (l : List Char) : Bool :=
  let low := toLowerLtList l
  ["slenkstinis", "patenkinamas", "pagrindinis", "aukštesnysis"].any fun w =>
    w.data.isPrefixOf low && nonWordHead (low.drop w.data.length)

/-- The per-value filter of the subjects loop in `main` (and of
`make_student_pdf`): `none` when the value is excluded, otherwise the cleaned
display string. -/
def includeValue (v : Cell) : Option String :=
  match v with
  | Cell.empty => none
  | _ =>
    let sv := pyStripStr (cellToStr v)
    if sv = "" then none
    else if toLowerLtStr sv = "nan" then none
    else if achValMatch sv.data then none
    else
      let c := clean_value_remove_tags sv
      if c = "" then none else some c

/-- One column of the subjects loop: the fixed identity columns are skipped
by name; a surviving value contributes the pair (subject, cleaned value). -/
def pairF (p : String × Cell) : Option (String × String) :=
  if p.1 = "Eil. Nr." || p.1 = "Pavardė, vardas" then none
  else (includeValue p.2).map fun s => (p.1, s)

/-- The CleanedSubjectSet of one student row: the subjects loop of `main`
over the columns in table order. -/
def subjectPairs (cols : List String) (r : List Cell) : List (String × String) :=
  (cols.zip r).filterMap pairF

/-- The exclusion condition stated from the claim's words, with the
achievement-level disjunct amended to require the word boundary the regex
imposes. -/
def excludedSpec (v : Cell) : Prop :=
  v = Cell.empty ∨
  pyStripStr (cellToStr v) = "" ∨
  toLowerLtStr (pyStripStr (cellToStr v)) = "nan" ∨
  achValMatch (pyStripStr (cellToStr v)).data = true ∨
  clean_value_remove_tags (pyStripStr (cellToStr v)) = ""

/-- A minimal grid whose row 0 is a header row (used to instantiate
hypothesis-bearing theorems). -/
def gridHeaderOnly : Grid := [[Cell.text "Eil. Nr.", Cell.text "Pavardė, vardas"]]

/-- A well-formed grid with one student and one graded subject. -/
def gridOneStudent : Grid :=
  [[Cell.text "Eil. Nr.", Cell.text "Pavardė, vardas", Cell.empty],
   [Cell.empty, Cell.empty, Cell.text "Matematika"],
   [Cell.text "1", Cell.text "Jonas Jonaitis", Cell.text "8 PR"]]

/-- A grid whose only graded value of the subject column sits in the
"Klasės pažangumas" summary row, which is dropped only after column
pruning. -/
def gridSummaryGrade : Grid :=
  [[Cell.text "Eil. Nr.", Cell.text "Pavardė, vardas", Cell.empty],
   [Cell.empty, Cell.empty, Cell.text "Matematika"],
   [Cell.text "1", Cell.text "Jonas Jonaitis", Cell.empty],
   [Cell.text "2", Cell.text "Klasės pažangumas", Cell.text "8"]]

/-- A grid whose subjects row names two columns identically. -/
def gridDupSubjects : Grid :=
  [[Cell.text "Eil. Nr.", Cell.text "Pavardė, vardas", Cell.text "x", Cell.text "y"],
   [Cell.empty, Cell.empty, Cell.text "Matematika", Cell.text "Matematika"]]

/-- A grid with one table row whose full-name cell is a blank (but present)
string, so the row survives the table filters yet emits no document. -/
def gridBlankName : Grid :=
  [[Cell.text "Eil. Nr.", Cell.text "Pavardė, vardas"],
   [],
   [Cell.text "1", Cell.text " "]]

/-- First-match characterisation of `List.find?` over `List.range`:
a found index satisfies the predicate, is within the bound, and is minimal. -/
theorem findRange_some {p : Nat → Bool} {n i : Nat}
    (h : (List.range n).find? p = some i) :
    i < n ∧ p i = true ∧ ∀ j, j < i → p j = false := by
  induction n with
  | zero => simp [List.range_zero] at h
  | succ n ih =>
    rw [List.range_succ, List.find?_append] at h
    cases hf : (List.range n).find? p with
    | some k =>
      rw [hf] at h
      simp only [Option.or_some] at h
      cases h
      obtain ⟨h1, h2, h3⟩ := ih hf
      exact ⟨Nat.lt_succ_of_lt h1, h2, h3⟩
    | none =>
      rw [hf] at h
      simp only [Option.none_or] at h
      have hmin : ∀ j, j < n → p j = false := by
        intro j hj
        have := List.find?_eq_none.mp hf j (List.mem_range.mpr hj)
        simpa using this
      by_cases hp : p n = true
      · rw [List.find?_cons_of_pos _ hp] at h
        cases h
        exact ⟨Nat.lt_succ_self _, hp, hmin⟩
      · rw [List.find?_cons_of_neg _ hp] at h
        simp at h
  
/-- When `List.find?` over `List.range` finds nothing, the predicate fails
everywhere below the bound. -/
theorem findRange_none {p : Nat → Bool} {n : Nat}
    (h : (List.range n).find? p = none) : ∀ j, j < n → p j = false := by
  intro j hj
  have := List.find?_eq_none.mp h j (List.mem_range.mpr hj)
  simpa using this

/-- Claim C1: for every raw grid, the header scan inspects at most the first
40 rows and selects the first row whose column-0 text (trimmed, lower-cased)
starts with "eil" and whose column-1 text contains "pavard" or "vard"
(column 1 is empty when the grid has fewer than 2 columns); it returns that
index together with the next index as subjects row; when no row within the
bound matches, the pipeline aborts with an error and produces no archive. -/
theorem c1_header_location : ∀ g : Grid,
    (∀ hr sr, find_header_rows g = some (hr, sr) →
      sr = hr + 1 ∧ hr < min 40 g.length ∧ headerPred g hr = true ∧
        ∀ j, j < hr → headerPred g j = false) ∧
    (find_header_rows g = none →
      (∀ j, j < min 40 g.length → headerPred g j = false) ∧
      ∃ e, runPipeline g = Except.error e) := by
  intro g
  constructor
  · intro hr sr h
    unfold find_header_rows at h
    cases hf : (List.range (min 40 g.length)).find? (headerPred g) with
    | none => rw [hf] at h; simp at h
    | some i =>
      rw [hf] at h
      simp only [Option.map_some'] at h
      obtain ⟨h1, h2⟩ := Prod.mk.injEq .. ▸ (Option.some.injEq .. ▸ h)
      obtain ⟨hlt, hp, hmin⟩ := findRange_some hf
      subst h1; subst h2
      exact ⟨rfl, hlt, hp, hmin⟩
  · intro h
    unfold find_header_rows at h
    have hf : (List.range (min 40 g.length)).find? (headerPred g) = none := by
      cases hf : (List.range (min 40 g.length)).find? (headerPred g) with
      | none => rfl
      | some i => rw [hf] at h; simp at h
    refine ⟨findRange_none hf, "Nerasta antraštės eilutė: turi būti Eil. Nr. ir Pavardė, vardas.", ?_⟩
    have hnone : find_header_rows g = none := by
      unfold find_header_rows; rw [hf]; rfl
    simp [runPipeline, mainTable, parse_excel_to_df, hnone, Except.map]

/-- Witness for C1 at a concrete header grid. -/
theorem c1_header_location_witness :
    headerPred gridHeaderOnly 0 = true ∧ (∀ j, j < 0 → headerPred gridHeaderOnly j = false) := by
  have h := (c1_header_location gridHeaderOnly).1 0 1 (by decide)
  exact ⟨h.2.2.1, h.2.2.2⟩

/-- Counterexample to claim C4: the value "x (PR) y" cleans to "x () y" —
the parenthesis run left behind by deleting the tag is not collapsed away,
because the separator cleanup of the code only trims the ends of the string
(the declared `EXTRA_SEP_RE` is never applied). -/
theorem c4_clean_counterexample :
    clean_value_remove_tags "x (PR) y" = "x () y" ∧
    containsSub "()".data (clean_value_remove_tags "x (PR) y").data = true := by decide

/-- Claim C4 (amended): the cleaner removes standalone PR/IN tokens at word
boundaries and never inside a longer token, collapses whitespace runs,
trims separator characters only at the two ends (interior separator runs
survive), and collapses whitespace again; in particular "8 PR" cleans to
"8", "įsk (IN)" to "įsk" and "PR" alone to the empty string. -/
theorem c4_clean_amended :
    clean_value_remove_tags "8 PR" = "8" ∧
    clean_value_remove_tags "įsk (IN)" = "įsk" ∧
    clean_value_remove_tags "PR" = "" ∧
    clean_value_remove_tags "PRINT" = "PRINT" ∧
    clean_value_remove_tags "SPRINTAS" = "SPRINTAS" ∧
    clean_value_remove_tags "x (PR) y" = "x () y" ∧
    clean_value_remove_tags "8  /  9" = "8 / 9" := by decide

/-- `getD` of `getLast?` after a cons: the head becomes the new default. -/
theorem getLastD_cons {α : Type} (a : α) (l : List α) (d : α) :
    ((a :: l).getLast?).getD d = (l.getLast?).getD a := by
  cases l with
  | nil => rfl
  | cons b t =>
    rw [List.getLast?_cons_cons]
    cases hl : (b :: t).getLast? with
    | none => simp [List.getLast?_eq_none_iff] at hl
    | some x => rfl

/-- `getD` of the last capture after a cons: the head's capture becomes the
new default. -/
theorem filterMap_getLastD_cons {α β : Type} (f : α → Option β) (a : α) (l : List α) (d : β) :
    (((a :: l).filterMap f).getLast?).getD d =
      ((l.filterMap f).getLast?).getD ((f a).getD d) := by
  rw [List.filterMap_cons]
  cases hf : f a with
  | none => rfl
  | some b => exact getLastD_cons b _ d

/-- One step of the metadata scan, expressed through the capture
functions. -/
theorem schoolClassGo_cons (c : Cell) (rest : List Cell) (m k : String) :
    schoolClassGo (c :: rest) (m, k) =
      schoolClassGo rest ((specSchoolCapture c).getD m, (specClassCapture c).getD k) := by
  cases c with
  | empty => rfl
  | other s => rfl
  | text s =>
    simp only [schoolClassGo, specSchoolCapture, specClassCapture]
    split_ifs <;> rfl

/-- The metadata scan with an arbitrary accumulator equals, component-wise,
the last capture of the scan window (with the accumulator as default). -/
theorem schoolClassGo_spec : ∀ (cells : List Cell) (m k : String),
    schoolClassGo cells (m, k) =
      (((cells.filterMap specSchoolCapture).getLast?).getD m,
       ((cells.filterMap specClassCapture).getLast?).getD k) := by
  intro cells
  induction cells with
  | nil => intro m k; rfl
  | cons c rest ih =>
    intro m k
    rw [schoolClassGo_cons, ih, filterMap_getLastD_cons, filterMap_getLastD_cons]

/-- Counterexample to claim C6: the cell "Pastaba: mokykla" sets the
institution (to "mokykla") although the text preceding the colon does not
contain "mokykla" — the code searches the whole cell text, not only the part
before the colon. -/
theorem c6_precolon_counterexample :
    try_extract_school_and_class [[Cell.text "Pastaba: mokykla"]] = ("mokykla", "") ∧
    containsSub "mokykla".data
      (toLowerLtList (beforeColon (stripWs "Pastaba: mokykla".data))) = false := by decide

/-- Claim C6 (amended): a string cell of the 12×12 window containing a colon
sets the institution to the trimmed text after the first colon exactly when
the whole cell text (not only the text before the colon) contains "mokykla"
case-insensitively, and likewise the class label for "klasė"/"klase"; the
last matching cell in row-major scan order wins and a field with no match is
the empty string. -/
theorem c6_school_class_amended :
    (∀ g : Grid, try_extract_school_and_class g =
      ((((windowCells g).filterMap specSchoolCapture).getLast?).getD "",
       (((windowCells g).filterMap specClassCapture).getLast?).getD "")) ∧
    try_extract_school_and_class
      [[Cell.text "Mokykla: Vilniaus 5-oji vidurinė"], [Cell.text "Klasė: IVa"]] =
      ("Vilniaus 5-oji vidurinė", "IVa") := by
  constructor
  · intro g
    exact schoolClassGo_spec (windowCells g) "" ""
  · decide

/-- The academic-year scan with an arbitrary fallback accumulator equals the
first pattern capture of the window, with the last "mokslo metai" cell (or
the accumulator) as fallback. -/
theorem yearGo_spec : ∀ (cells : List Cell) (cand : String),
    yearGo cells cand =
      (match (cells.filterMap specYearCapture).head? with
       | some y => y
       | none => ((cells.filterMap specYearFallback).getLast?).getD cand) := by
  intro cells
  induction cells with
  | nil => intro cand; rfl
  | cons c rest ih =>
    intro cand
    cases c with
    | empty =>
      simpa [yearGo, List.filterMap_cons, specYearCapture, specYearFallback] using ih cand
    | other s =>
      simpa [yearGo, List.filterMap_cons, specYearCapture, specYearFallback] using ih cand
    | text s =>
      cases hp : patSearch (stripWs s.data) with
      | some p =>
        simp [yearGo, List.filterMap_cons, specYearCapture, specYearFallback, hp]
      | none =>
        by_cases hmm : containsSub "mokslo metai".data (toLowerLtList (stripWs s.data)) = true
        · simp only [yearGo, List.filterMap_cons, specYearCapture, specYearFallback, hp,
            hmm, if_pos, Option.map_none']
          rw [ih]
          cases hh : (rest.filterMap specYearCapture).head? with
          | some y => rfl
          | none => rw [getLastD_cons]
        · simp only [yearGo, List.filterMap_cons, specYearCapture, specYearFallback, hp,
            hmm, if_neg, Option.map_none']
          exact ih cand

/-- Claim C7: scanning the 12×12 window row-major, the first string cell
matching the two-year pattern short-circuits and is returned formatted with
an en-dash (first match wins on the concrete example), and when no cell
matches the pattern the trimmed full text of the last cell containing
"mokslo metai" is returned, or the empty string when none exists. -/
theorem c7_academic_year :
    (∀ g : Grid, try_extract_academic_year g = specAcademicYear (windowCells g)) ∧
    try_extract_academic_year [[Cell.text "2024-2025", Cell.text "2023-2024"]] = "2024–2025" := by
  constructor
  · intro g
    exact yearGo_spec (windowCells g) ""
  · decide

/-- Counterexample to claim C8: two subject cells with the same text produce
two identical column names — the naming step enforces no uniqueness. -/
theorem c8_unique_counterexample :
    find_header_rows gridDupSubjects = some (0, 1) ∧
    buildColumns gridDupSubjects 1 =
      ["Eil. Nr.", "Pavardė, vardas", "Matematika", "Matematika"] ∧
    ¬ ((buildColumns gridDupSubjects 1).drop 2).Nodup := by decide

/-- Claim C8 (amended): for every located subjects row, the first two column
names are the fixed identity names and each further column index `j` is named
by the trimmed cell at `(subjectsRow, j)`, with the synthesized placeholder
`Dalykas_<j-1>` when that cell is blank; the names are not guaranteed unique
(duplicate subject cells yield duplicate names). -/
theorem c8_column_naming : ∀ (g : Grid) (sr : Nat),
    (buildColumns g sr).length = max 2 (width g) ∧
    (buildColumns g sr).getD 0 "" = "Eil. Nr." ∧
    (buildColumns g sr).getD 1 "" = "Pavardė, vardas" ∧
    ∀ j, 2 ≤ j → j < width g →
      (buildColumns g sr).getD j "" =
        (if (stripWs (strOfNotna (cellAt g sr j)).data).isEmpty
         then "Dalykas_" ++ toString (j - 1)
         else String.mk (stripWs (strOfNotna (cellAt g sr j)).data)) := by
  intro g sr
  have hlen2 : (["Eil. Nr.", "Pavardė, vardas"] : List String).length = 2 := rfl
  refine ⟨?_, rfl, rfl, ?_⟩
  · simp only [buildColumns, List.length_append, List.length_map, List.length_range', hlen2]
    omega
  · intro j h2 hj
    have hjlen : j - 2 < ((List.range' 2 (width g - 2)).map fun j =>
        let s := stripWs (strOfNotna (cellAt g sr j)).data
        if s.isEmpty then "Dalykas_" ++ toString (j - 1) else String.mk s).length := by
      simp only [List.length_map, List.length_range']
      omega
    rw [buildColumns, List.getD_eq_getElem?_getD,
      List.getElem?_append_right (by rw [hlen2]; omega), hlen2]
    rw [List.getElem?_eq_getElem hjlen]
    simp only [List.getElem_map, List.getElem_range']
    have hidx : 2 + 1 * (j - 2) = j := by omega
    rw [hidx]
    rfl

/-- Witness for C8 at a concrete grid and column index. -/
theorem c8_column_naming_witness :
    (buildColumns gridOneStudent 1).getD 2 "" = "Matematika" := by
  have h := (c8_column_naming gridOneStudent 1).2.2.2 2 (by decide) (by decide)
  exact h.trans (by decide)

/-- The two branches of `is_final_class` collapse to a disjunction of the two
regex matchers. -/
theorem is_final_class_some (k : String) :
    is_final_class (some k) =
      (finalClassMatch (stripWs k.data) || has12 none (stripWs k.data)) := by
  cases h1 : finalClassMatch (stripWs k.data) <;>
    cases h2 : has12 none (stripWs k.data) <;>
      simp [is_final_class, h1, h2]

/-- Claim C9: `is_final_class` returns true exactly for string inputs whose
trimmed text whole-string-matches the Roman numeral IV optionally followed
by a single letter (case-insensitive) or contains "12" as a word-bounded
token; it returns true on "IV", "IVa", "iv B", "class 12" and false on
"12a", "III", "11", the empty string and non-string input. -/
theorem c9_is_final_class :
    (∀ o : Option String, is_final_class o = true ↔
      ∃ k, o = some k ∧ (finalClassMatch (stripWs k.data) = true ∨
                         has12 none (stripWs k.data) = true)) ∧
    is_final_class (some "IV") = true ∧
    is_final_class (some "IVa") = true ∧
    is_final_class (some "iv B") = true ∧
    is_final_class (some "class 12") = true ∧
    is_final_class (some "12a") = false ∧
    is_final_class (some "III") = false ∧
    is_final_class (some "11") = false ∧
    is_final_class (some "") = false ∧
    is_final_class none = false := by
  refine ⟨?_, by decide, by decide, by decide, by decide, by decide, by decide,
    by decide, by decide, rfl⟩
  intro o
  cases o with
  | none => simp [is_final_class]
  | some k =>
    rw [is_final_class_some]
    simp [Bool.or_eq_true]

/-- A surviving pair of the subjects loop keeps its column name. -/
theorem pairF_fst {p : String × Cell} {q : String × String}
    (h : pairF p = some q) : q.1 = p.1 := by
  unfold pairF at h
  split_ifs at h
  cases hi : includeValue p.2 with
  | none => rw [hi] at h; simp at h
  | some s =>
    rw [hi] at h
    simp only [Option.map_some'] at h
    cases h
    rfl

/-- The names of the surviving pairs form a sublist of the zipped column
names. -/
theorem pairF_fst_sublist : ∀ l : List (String × Cell),
    ((l.filterMap pairF).map Prod.fst).Sublist (l.map Prod.fst) := by
  intro l
  induction l with
  | nil => simp
  | cons p t ih =>
    rw [List.filterMap_cons]
    cases hp : pairF p with
    | none =>
      simpa using ih.trans (List.sublist_cons_self p.1 (t.map Prod.fst))
    | some q =>
      simpa [pairF_fst hp] using List.Sublist.cons₂ p.1 ih

/-- Zipping truncates the first list to the second's length. -/
theorem zip_map_fst {α β : Type} : ∀ (l1 : List α) (l2 : List β),
    (l1.zip l2).map Prod.fst = l1.take l2.length := by
  intro l1
  induction l1 with
  | nil => intro l2; simp
  | cons a t ih =>
    intro l2
    cases l2 with
    | nil => simp
    | cons b t2 => simp [List.zip_cons_cons, ih t2]

/-- Claim C3 (amended): a subject value is excluded from the cleaned subject
set exactly when the cell is missing, or its trimmed text is empty or equals
"nan" case-insensitively, or its text starts with one of the four
achievement-level names followed by a word boundary (not merely "starts
with": a word character may not follow), or cleaning yields the empty
string; in particular every achievement-level value is excluded, and the
surviving pairs preserve the table's column order. -/
theorem c3_value_filter_amended :
    (∀ v : Cell, includeValue v = none ↔ excludedSpec v) ∧
    (∀ v : Cell, achValMatch (pyStripStr (cellToStr v)).data = true → includeValue v = none) ∧
    (∀ (cols : List String) (r : List Cell),
      ((subjectPairs cols r).map Prod.fst).Sublist cols) := by
  have hiff : ∀ v : Cell, includeValue v = none ↔ excludedSpec v := by
    intro v
    cases v with
    | empty => simp [includeValue, excludedSpec]
    | text s =>
      simp only [includeValue, excludedSpec]
      split_ifs with h1 h2 h3 h4 <;> simp_all
    | other s =>
      simp only [includeValue, excludedSpec]
      split_ifs with h1 h2 h3 h4 <;> simp_all
  refine ⟨hiff, fun v h => (hiff v).mpr (Or.inr (Or.inr (Or.inr (Or.inl h)))), ?_⟩
  intro cols r
  have h1 := pairF_fst_sublist (cols.zip r)
  rw [zip_map_fst] at h1
  exact h1.trans (List.take_sublist _ _)

/-- Witness for C3: an achievement-level value is excluded. -/
theorem c3_value_filter_witness :
    includeValue (Cell.text "Patenkinamas") = none :=
  c3_value_filter_amended.2.1 (Cell.text "Patenkinamas") (by decide)

/-- Counterexample to claim C3: the value "Slenkstinisx" starts (trimmed,
lower-cased) with the achievement-level name "slenkstinis", yet it is NOT
excluded — the regex `ACH_LVL_VAL_RE` additionally requires a word boundary
after the level name, and "x" is a word character. -/
theorem c3_startswith_counterexample :
    "slenkstinis".data.isPrefixOf (toLowerLtList (stripWs "Slenkstinisx".data)) = true ∧
    includeValue (Cell.text "Slenkstinisx") = some "Slenkstinisx" := by decide

/-- `getD` through a `map` over an index list. -/
theorem getD_map_index {α : Type} (l : List Nat) (f : Nat → α) (d : α) {p : Nat}
    (hp : p < l.length) : (l.map f).getD p d = f (l.getD p 0) := by
  rw [List.getD_eq_getElem?_getD, List.getElem?_map, List.getElem?_eq_getElem hp,
    Option.map_some', Option.getD_some, List.getD_eq_getElem?_getD,
    List.getElem?_eq_getElem hp, Option.getD_some]

/-- A kept subject index of `keepIdx` (position 2 or later) comes from the
filtered range, hence satisfies the pruning condition. -/
theorem keepIdx_getD_mem (C : List String) (R : List (List Cell)) {p : Nat}
    (h2 : 2 ≤ p) (hp : p < (keepIdx C R).length) :
    (keepIdx C R).getD p 0 ∈
      (List.range' 2 (C.length - 2)).filter (fun j =>
        !(fixedCols.contains (C.getD j "")) &&
        R.any fun r => !(r.getD j Cell.empty).isNA) := by
  unfold keepIdx at hp ⊢
  have hlen2 : ([0, 1] : List Nat).length = 2 := rfl
  have hFlen : p - 2 < ((List.range' 2 (C.length - 2)).filter (fun j =>
      !(fixedCols.contains (C.getD j "")) &&
      R.any fun r => !(r.getD j Cell.empty).isNA)).length := by
    rw [List.length_append, hlen2] at hp
    omega
  rw [List.getD_eq_getElem?_getD, List.getElem?_append_right (by rw [hlen2]; omega), hlen2,
    List.getElem?_eq_getElem hFlen, Option.getD_some]
  exact List.getElem_mem _

/-- Core of the C2 pruning invariant, over the raw column names `C` and the
filtered data rows `R` of `parse_excel_to_df`: every kept subject column of
the produced table has a present value in some produced row. -/
theorem parse_core_subject (C : List String) (R : List (List Cell)) (p : Nat)
    (h2 : 2 ≤ p) (hp : p < ((keepIdx C R).map fun j => C.getD j "").length) :
    ∃ r ∈ R.map (fun r => (keepIdx C R).map fun j => r.getD j Cell.empty),
      (r.getD p Cell.empty).isNA = false := by
  rw [List.length_map] at hp
  have hmem := keepIdx_getD_mem C R h2 hp
  have hpred := (List.mem_filter.mp hmem).2
  rw [Bool.and_eq_true] at hpred
  obtain ⟨r, hr, hb⟩ := List.any_eq_true.mp hpred.2
  refine ⟨(keepIdx C R).map fun j => r.getD j Cell.empty, List.mem_map_of_mem _ hr, ?_⟩
  rw [getD_map_index _ _ _ hp]
  simpa using hb

/-- A `List.range` filtered by a predicate true at 0 and 1 starts with
`0 :: 1 :: _` as soon as the range is long enough. -/
theorem range_filter_01 (n : Nat) (p : Nat → Bool) (hn : 2 ≤ n)
    (h0 : p 0 = true) (h1 : p 1 = true) :
    ∃ rest, (List.range n).filter p = 0 :: 1 :: rest := by
  obtain ⟨m, rfl⟩ : ∃ m, n = m + 2 := ⟨n - 2, by omega⟩
  refine ⟨(List.range' 2 m).filter p, ?_⟩
  rw [List.range_eq_range', show m + 2 = (m + 1) + 1 from rfl,
    List.range'_succ, List.range'_succ]
  simp [List.filter_cons, h0, h1]

/-- Core of the C2 name invariant: when every filtered data row has a present
full-name cell, every row of the post-filter table still does — the two
fixed columns survive both the pruning and the achievement-level column
drop, keeping the full name at position 1. -/
theorem postFilter_name_core (C : List String) (R : List (List Cell))
    (hC0 : C.getD 0 "" = "Eil. Nr.") (hC1 : C.getD 1 "" = "Pavardė, vardas")
    (hnames : ∀ r ∈ R, (r.getD 1 Cell.empty).isNA = false) :
    ∀ r ∈ (postFilter ⟨(keepIdx C R).map fun j => C.getD j "",
            R.map fun r => (keepIdx C R).map fun j => r.getD j Cell.empty⟩).rows,
      (r.getD 1 Cell.empty).isNA = false := by
  intro r hrmem
  unfold postFilter at hrmem
  simp only [List.mem_filter] at hrmem
  obtain ⟨hrmem, -⟩ := hrmem
  simp only [List.mem_map] at hrmem
  obtain ⟨r0, hr0, rfl⟩ := hrmem
  obtain ⟨r1, hr1, rfl⟩ := hr0
  -- the projected column names start with the two fixed names
  have hkishape : keepIdx C R = 0 :: 1 :: (List.range' 2 (C.length - 2)).filter (fun j =>
      !(fixedCols.contains (C.getD j "")) &&
      R.any fun r => !(r.getD j Cell.empty).isNA) := rfl
  have hcols0 : ((keepIdx C R).map fun j => C.getD j "").getD 0 "" = "Eil. Nr." := by
    rw [hkishape]; simpa using hC0
  have hcols1 : ((keepIdx C R).map fun j => C.getD j "").getD 1 "" = "Pavardė, vardas" := by
    rw [hkishape]; simpa using hC1
  have hclen : 2 ≤ ((keepIdx C R).map fun j => C.getD j "").length := by
    rw [hkishape]; simp
  have h0 : (!achColMatch ((((keepIdx C R).map fun j => C.getD j "")).getD 0 "").data) = true := by
    rw [hcols0]; decide
  have h1 : (!achColMatch ((((keepIdx C R).map fun j => C.getD j "")).getD 1 "").data) = true := by
    rw [hcols1]; decide
  obtain ⟨rest, hki2⟩ := range_filter_01 _
    (fun j => !achColMatch ((((keepIdx C R).map fun j => C.getD j "")).getD j "").data)
    hclen h0 h1
  have hki2len : 1 < ((List.range (((keepIdx C R).map fun j => C.getD j "").length)).filter
      (fun j => !achColMatch ((((keepIdx C R).map fun j => C.getD j "")).getD j "").data)).length := by
    rw [hki2]; simp
  rw [getD_map_index _ _ _ hki2len, hki2]
  have hki1 : 1 < (keepIdx C R).length := by rw [hkishape]; simp
  show ((((keepIdx C R).map fun j => r1.getD j Cell.empty)).getD 1 Cell.empty).isNA = false
  rw [getD_map_index _ _ _ hki1, hkishape]
  exact hnames r1 hr1

/-- Counterexample to claim C2: in this grid the only graded value of the
kept subject column "Matematika" sits in the "Klasės pažangumas" summary row;
the summary row is dropped only after column pruning, so the final table
keeps a subject column with no present value in any remaining row. -/
theorem c2_summary_order_counterexample :
    mainTable gridSummaryGrade =
      Except.ok ⟨["Eil. Nr.", "Pavardė, vardas", "Matematika"],
                 [[Cell.text "1", Cell.text "Jonas Jonaitis", Cell.empty]]⟩ ∧
    (∀ r ∈ [[Cell.text "1", Cell.text "Jonas Jonaitis", Cell.empty]],
      ((r : List Cell).getD 2 Cell.empty).isNA = true) := by
  exact ⟨rfl, by decide⟩

/-- Claim C2 (amended): after the empty-row drop, the missing-name drop and
the column pruning of `parse_excel_to_df`, every kept subject column has at
least one present value across the then-remaining rows; and after ALL steps
(including the achievement-level column drop and the summary-row drop) the
full-name column has no missing value in any remaining row.  The subject
part does not survive the later summary-row drop (see the counterexample). -/
theorem c2_table_invariant_amended : ∀ (g : Grid) (t : Table),
    parse_excel_to_df g = Except.ok t →
    (∀ p, 2 ≤ p → p < t.cols.length →
      ∃ r ∈ t.rows, (r.getD p Cell.empty).isNA = false) ∧
    (∀ t2, mainTable g = Except.ok t2 →
      ∀ r ∈ t2.rows, (r.getD 1 Cell.empty).isNA = false) := by
  intro g t hok
  have hok0 := hok
  unfold parse_excel_to_df at hok
  cases hf : find_header_rows g with
  | none => rw [hf] at hok; exact absurd hok (by simp)
  | some pr =>
    obtain ⟨hr, sr⟩ := pr
    rw [hf] at hok
    simp only [Except.ok.injEq] at hok
    subst hok
    constructor
    · intro p h2 hp
      exact parse_core_subject _ _ p h2 hp
    · intro t2 h2 r hrmem
      unfold mainTable at h2
      rw [hok0] at h2
      simp only [Except.map, Except.ok.injEq] at h2
      subst h2
      refine postFilter_name_core _ _ ?_ ?_ ?_ r hrmem
      · rfl
      · rfl
      · intro r1 hr1
        have := (List.mem_filter.mp hr1).2
        simpa using this

/-- Witness for C2 at a concrete grid: the kept subject column has a graded
row. -/
theorem c2_table_invariant_witness :
    ∃ r ∈ ([[Cell.text "1", Cell.text "Jonas Jonaitis", Cell.text "8 PR"]] : List (List Cell)),
      (r.getD 2 Cell.empty).isNA = false := by
  have h := (c2_table_invariant_amended gridOneStudent
      ⟨["Eil. Nr.", "Pavardė, vardas", "Matematika"],
       [[Cell.text "1", Cell.text "Jonas Jonaitis", Cell.text "8 PR"]]⟩ rfl).1
      2 (by decide) (by decide)
  exact h

/-- A `filterMap` whose function is a guarded `some` is a `filter` followed
by a `map`. -/
theorem filterMap_guard {α β : Type} (p : α → Bool) (f : α → β) : ∀ l : List α,
    (l.filterMap fun a => if p a then some (f a) else none) = (l.filter p).map f := by
  intro l
  induction l with
  | nil => rfl
  | cons a t ih =>
    by_cases hp : p a = true <;> simp [List.filterMap_cons, List.filter_cons, hp, ih]

/-- No output character of the sanitising replacement is unsafe. -/
theorem sanChar_safe : ∀ c c', sanChar c = some c' → ¬ c' ∈ unsafeChars := by
  intro c c' h
  unfold sanChar at h
  split_ifs at h with h1 h2 h3 h4 h5 h6 h7 h8 h9
  all_goals try simp at h
  all_goals cases h
  all_goals first
    | decide
    | simp_all [unsafeChars]

/-- The sanitised name contains none of the nine unsafe characters. -/
theorem sanitizeName_safe (s : String) {c : Char} (hc : c ∈ unsafeChars) :
    ¬ c ∈ (sanitizeName s).data := by
  intro hmem
  obtain ⟨a, _, hsan⟩ := List.mem_filterMap.mp hmem
  exact sanChar_safe a c hsan hc

/-- Counterexample to claim C10: a remaining table row whose full-name cell
is the one-space string produces no document — the zip loop skips it — so the
archive does not contain one document per remaining row. -/
theorem c10_blank_name_counterexample :
    mainTable gridBlankName =
      Except.ok ⟨["Eil. Nr.", "Pavardė, vardas"], [[Cell.text "1", Cell.text " "]]⟩ ∧
    runPipeline gridBlankName = Except.ok [] := ⟨rfl, rfl⟩

/-- Claim C10 (amended): the archive contains exactly one document per
remaining row that passes the emit-time guards (trimmed name non-empty, not
"nan", not the summary phrase), named by the sanitised display name with
`.pdf` appended; no archive member name contains any of the nine unsafe
characters; and a produced archive always comes from the final filtered
table. -/
theorem c10_archive_amended :
    (∀ t : Table, archiveNames t =
      (t.rows.filter emitOk).map fun r => sanitizeName (rowName r) ++ ".pdf") ∧
    (∀ t : Table, ∀ fn ∈ archiveNames t, ∀ c ∈ unsafeChars, ¬ c ∈ fn.data) ∧
    (∀ (g : Grid) (ns : List String), runPipeline g = Except.ok ns →
      ∃ t, mainTable g = Except.ok t ∧ ns = archiveNames t) := by
  have hmap : ∀ t : Table, archiveNames t =
      (t.rows.filter emitOk).map fun r => sanitizeName (rowName r) ++ ".pdf" :=
    fun t => filterMap_guard emitOk _ t.rows
  refine ⟨hmap, ?_, ?_⟩
  · intro t fn hfn c hc
    rw [hmap t] at hfn
    obtain ⟨r, _, rfl⟩ := List.mem_map.mp hfn
    intro hmem
    have hsplit : (sanitizeName (rowName r) ++ ".pdf").data =
        (sanitizeName (rowName r)).data ++ ".pdf".data := rfl
    rw [hsplit] at hmem
    rcases List.mem_append.mp hmem with h | h
    · exact sanitizeName_safe _ hc h
    · have hpdf : ∀ c ∈ unsafeChars, ¬ c ∈ ".pdf".data := by decide
      exact hpdf c hc h
  · intro g ns h
    unfold runPipeline at h
    split at h
    · exact absurd h (by simp)
    · rename_i t heq
      split at h
      · exact absurd h (by simp)
      · simp only [Except.ok.injEq] at h
        exact ⟨t, heq, h.symm⟩

/-- Witness for C10 at a concrete grid: a produced archive, and an unsafe
character absent from its single member name. -/
theorem c10_archive_witness :
    (∃ t, mainTable gridOneStudent = Except.ok t ∧
      ["Jonas Jonaitis.pdf"] = archiveNames t) ∧
    ¬ '/' ∈ "Jonas Jonaitis.pdf".data := by
  constructor
  · exact c10_archive_amended.2.2 gridOneStudent ["Jonas Jonaitis.pdf"] rfl
  · exact c10_archive_amended.2.1
      ⟨["Eil. Nr.", "Pavardė, vardas", "Matematika"],
       [[Cell.text "1", Cell.text "Jonas Jonaitis", Cell.text "8 PR"]]⟩
      "Jonas Jonaitis.pdf" (by decide) '/' (by decide)

/-- Both characters of a tag token are word characters. -/
theorem isTagPair_word {a b : Char} (h : isTagPair a b = true) :
    wordChar a = true ∧ wordChar b = true := by
  simp only [isTagPair, Bool.or_eq_true, Bool.and_eq_true, decide_eq_true_eq] at h
  rcases h with ⟨h1 | h1, h2 | h2⟩ | ⟨h1 | h1, h2 | h2⟩ <;> subst h1 <;> subst h2 <;>
    exact ⟨by decide, by decide⟩

/-- A non-word character never starts a tag token. -/
theorem isTagPair_false_left {a b : Char} (h : wordChar a = false) :
    isTagPair a b = false := by
  cases hip : isTagPair a b with
  | false => rfl
  | true => exact absurd (isTagPair_word hip).1 (by simp [h])

/-- Whitespace characters are not word characters. -/
theorem ws_not_word {c : Char} (h : isWs c = true) : wordChar c = false := by
  simp only [isWs, Bool.or_eq_true, decide_eq_true_eq] at h
  casesm* _ ∨ _
  all_goals subst_vars
  all_goals decide

/-- Separator characters are not word characters. -/
theorem sep_not_word {c : Char} (h : isSep c = true) : wordChar c = false := by
  simp only [isSep, Bool.or_eq_true, decide_eq_true_eq] at h
  casesm* _ ∨ _
  all_goals subst_vars
  all_goals decide

/-- The tag scan only looks at the word-ness of the previous character. -/
theorem hasTag_prev_congr {p q : Option Char} (l : List Char)
    (h : nonWordOpt p = nonWordOpt q) : hasTag p l = hasTag q l := by
  match l with
  | [] => rfl
  | [_] => rfl
  | a :: b :: t => simp [hasTag, tagHere, h]

/-- The tag scan of a tail, from the scan of the whole list. -/
theorem hasTag_tail {p : Option Char} {a : Char} {l : List Char}
    (h : hasTag p (a :: l) = false) : hasTag (some a) l = false := by
  match l with
  | [] => rfl
  | b :: t =>
    simp only [hasTag] at h
    exact (Bool.or_eq_false_iff.mp h).2

/-- When the head is not a word character, the previous-character context is
irrelevant to the tag scan. -/
theorem hasTag_head_nonword {l : List Char} (hl : nonWordHead l = true)
    (p q : Option Char) : hasTag p l = hasTag q l := by
  match l with
  | [] => rfl
  | [_] => rfl
  | a :: b :: t =>
    have ha : wordChar a = false := by
      simpa [nonWordHead] using hl
    simp [hasTag, tagHere, isTagPair_false_left ha]

/-- `tagSub` preserves a non-word head. -/
theorem tagSub_head_nonword (p : Option Char) (l : List Char)
    (hl : nonWordHead l = true) : nonWordHead (tagSub p l) = true := by
  match l with
  | [] => rfl
  | [_] => exact hl
  | a :: b :: t =>
    have ha : wordChar a = false := by simpa [nonWordHead] using hl
    have : tagHere p a b t = false := by simp [tagHere, isTagPair_false_left ha]
    simpa [tagSub, this, nonWordHead] using hl

/-- Core property of the tag deletion: the output contains no standalone tag
token (scanning the output from the same previous-character context). -/
theorem tagSub_no_tag : ∀ (n : Nat) (p : Option Char) (l : List Char),
    l.length ≤ n → hasTag p (tagSub p l) = false := by
  intro n
  induction n with
  | zero =>
    intro p l hl
    cases l with
    | nil => rfl
    | cons a t => simp at hl
  | succ n ihn =>
    intro p l hl
    match l with
    | [] => rfl
    | [a] => rfl
    | a :: b :: t =>
      by_cases hm : tagHere p a b t = true
      · rw [show tagSub p (a :: b :: t) = tagSub (some b) t from by simp [tagSub, hm]]
        have hnwh : nonWordHead t = true := by
          simp only [tagHere, Bool.and_eq_true] at hm
          exact hm.2
        have hout := ihn (some b) t (by simp at hl ⊢; omega)
        rw [hasTag_head_nonword (tagSub_head_nonword (some b) t hnwh) p (some b)]
        exact hout
      · rw [show tagSub p (a :: b :: t) = a :: tagSub (some a) (b :: t)
          from by simp [tagSub, hm]]
        have hout := ihn (some a) (b :: t) (by simp at hl ⊢; omega)
        cases hoc : tagSub (some a) (b :: t) with
        | nil => rfl
        | cons c rest =>
          have h2 : hasTag (some a) (c :: rest) = false := by rw [← hoc]; exact hout
          have hfront : tagHere p a c rest = false := by
            cases t with
            | nil =>
              have hoc2 : ([b] : List Char) = c :: rest := hoc
              injection hoc2 with h1 h3
              subst h1
              subst h3
              simpa using hm
            | cons d t2 =>
              by_cases hm2 : tagHere (some a) b d t2 = true
              · have ha : wordChar a = false := by
                  simp only [tagHere, Bool.and_eq_true, nonWordOpt] at hm2
                  simpa using hm2.1.2
                simp [tagHere, isTagPair_false_left ha]
              · have hoc2 : b :: tagSub (some b) (d :: t2) = c :: rest := by
                  rw [← hoc]; simp [tagSub, hm2]
                injection hoc2 with h1 hrest
                subst h1
                by_cases hip : isTagPair a b = true
                · by_cases hp : nonWordOpt p = true
                  · have hd : wordChar d = true := by
                      have hfalse : nonWordHead (d :: t2) = false := by
                        cases hnw : nonWordHead (d :: t2) with
                        | false => rfl
                        | true =>
                          exact absurd
                            (show tagHere p a b (d :: t2) = true by
                              simp [tagHere, hip, hp, hnw]) hm
                      simpa [nonWordHead] using hfalse
                    have hb : wordChar b = true := (isTagPair_word hip).2
                    have hhead : nonWordHead (tagSub (some b) (d :: t2)) = false := by
                      cases t2 with
                      | nil => simpa [tagSub, nonWordHead] using hd
                      | cons e t3 =>
                        have hne : tagHere (some b) d e t3 = false := by
                          simp [tagHere, nonWordOpt, hb]
                        simp [tagSub, hne, nonWordHead, hd]
                    rw [hrest] at hhead
                    simp [tagHere, hhead]
                  · have hpf : nonWordOpt p = false := by simpa using hp
                    simp [tagHere, hpf]
                · have hipf : isTagPair a b = false := by simpa using hip
                  simp [tagHere, hipf]
          show hasTag p (a :: c :: rest) = false
          rw [show hasTag p (a :: c :: rest) =
            (tagHere p a c rest || hasTag (some a) (c :: rest)) from rfl]
          rw [hfront, h2]
          rfl

/-- Tag deletion is the identity on tag-free strings. -/
theorem tagSub_id_of_no_tag : ∀ (n : Nat) (p : Option Char) (l : List Char),
    l.length ≤ n → hasTag p l = false → tagSub p l = l := by
  intro n
  induction n with
  | zero =>
    intro p l hl _
    cases l with
    | nil => rfl
    | cons a t => simp at hl
  | succ n ihn =>
    intro p l hl h
    match l with
    | [] => rfl
    | [a] => rfl
    | a :: b :: t =>
      have hm : tagHere p a b t = false := by
        rw [show hasTag p (a :: b :: t) =
          (tagHere p a b t || hasTag (some a) (b :: t)) from rfl] at h
        exact (Bool.or_eq_false_iff.mp h).1
      rw [show tagSub p (a :: b :: t) = a :: tagSub (some a) (b :: t)
        from by simp [tagSub, hm]]
      rw [ihn (some a) (b :: t) (by simp at hl ⊢; omega) (hasTag_tail h)]

/-- Unfolding of the whitespace collapse on a cons. -/
theorem collapseWs_cons (c : Char) (t : List Char) :
    collapseWs (c :: t) = collapseStep c (collapseWs t) := rfl

/-- The whitespace collapse keeps a non-whitespace head in place. -/
theorem collapseWs_cons_not_ws {b : Char} (t : List Char) (hb : isWs b = false) :
    collapseWs (b :: t) = b :: collapseWs t := by
  rw [collapseWs_cons]
  simp [collapseStep, hb]

/-- The whitespace collapse cannot introduce a standalone tag token. -/
theorem collapseWs_no_tag : ∀ (l : List Char) (p : Option Char),
    hasTag p l = false → hasTag p (collapseWs l) = false := by
  intro l
  induction l with
  | nil => intro p _; rfl
  | cons c t ih =>
    intro p h
    have htail : hasTag (some c) t = false := hasTag_tail h
    have hX : hasTag (some c) (collapseWs t) = false := ih (some c) htail
    rw [collapseWs_cons]
    by_cases hwc : isWs c = true
    · cases hXc : collapseWs t with
      | nil =>
        rw [show collapseStep c [] = [c] from by simp [collapseStep, hwc]]
        rfl
      | cons d r =>
        by_cases hwd : isWs d = true
        · rw [show collapseStep c (d :: r) = ' ' :: r from by simp [collapseStep, hwc, hwd]]
          cases r with
          | nil => rfl
          | cons e r2 =>
            rw [show hasTag p (' ' :: e :: r2) =
              (tagHere p ' ' e r2 || hasTag (some ' ') (e :: r2)) from rfl]
            have h1 : tagHere p ' ' e r2 = false := by
              simp [tagHere, isTagPair_false_left (show wordChar ' ' = false from by decide)]
            have h2 : hasTag (some ' ') (e :: r2) = false := by
              have hd2 : hasTag (some d) (e :: r2) = false := by
                rw [hXc] at hX
                exact hasTag_tail hX
              rw [hasTag_prev_congr (e :: r2)
                (show nonWordOpt (some ' ') = nonWordOpt (some d) from by
                  simp [nonWordOpt, ws_not_word hwd,
                    show wordChar ' ' = false from by decide])]
              exact hd2
            rw [h1, h2]
            rfl
        · have hwdf : isWs d = false := by simpa using hwd
          rw [show collapseStep c (d :: r) = c :: d :: r
            from by simp [collapseStep, hwc, hwdf]]
          rw [show hasTag p (c :: d :: r) =
            (tagHere p c d r || hasTag (some c) (d :: r)) from rfl]
          have h1 : tagHere p c d r = false := by
            simp [tagHere, isTagPair_false_left (ws_not_word hwc)]
          have h2 : hasTag (some c) (d :: r) = false := by rw [← hXc]; exact hX
          rw [h1, h2]
          rfl
    · have hwcf : isWs c = false := by simpa using hwc
      rw [show collapseStep c (collapseWs t) = c :: collapseWs t
        from by simp [collapseStep, hwcf]]
      cases hXc : collapseWs t with
      | nil => rfl
      | cons d r =>
        rw [show hasTag p (c :: d :: r) =
          (tagHere p c d r || hasTag (some c) (d :: r)) from rfl]
        have hsecond : hasTag (some c) (d :: r) = false := by rw [← hXc]; exact hX
        have hfirst : tagHere p c d r = false := by
          by_cases hip : isTagPair c d = true
          · have hwd : wordChar d = true := (isTagPair_word hip).2
            have hdnw : isWs d = false := by
              cases hws : isWs d with
              | false => rfl
              | true => exact absurd (ws_not_word hws) (by simp [hwd])
            cases t with
            | nil => rw [show collapseWs ([] : List Char) = [] from rfl] at hXc; simp at hXc
            | cons b0 t2 =>
              by_cases hwb0 : isWs b0 = true
              · have hwsd : isWs d = true := by
                  rw [collapseWs_cons] at hXc
                  cases hY : collapseWs t2 with
                  | nil =>
                    rw [hY] at hXc
                    have : ([b0] : List Char) = d :: r := by
                      simpa [collapseStep, hwb0] using hXc
                    injection this with h1 _
                    rw [← h1]
                    exact hwb0
                  | cons y0 ys =>
                    rw [hY] at hXc
                    by_cases hwy : isWs y0 = true
                    · have : (' ' :: ys : List Char) = d :: r := by
                        simpa [collapseStep, hwb0, hwy] using hXc
                      injection this with h1 _
                      rw [← h1]
                      decide
                    · have : (b0 :: y0 :: ys : List Char) = d :: r := by
                        simpa [collapseStep, hwb0, hwy] using hXc
                      injection this with h1 _
                      rw [← h1]
                      exact hwb0
                exact absurd hwsd (by simp [hdnw])
              · have hwb0f : isWs b0 = false := by simpa using hwb0
                rw [collapseWs_cons_not_ws t2 hwb0f] at hXc
                injection hXc with hdb hrr
                subst hdb
                have hm0 : tagHere p c b0 t2 = false := by
                  rw [show hasTag p (c :: b0 :: t2) =
                    (tagHere p c b0 t2 || hasTag (some c) (b0 :: t2)) from rfl] at h
                  exact (Bool.or_eq_false_iff.mp h).1
                by_cases hp : nonWordOpt p = true
                · have hnwh : nonWordHead t2 = false := by
                    cases hnw : nonWordHead t2 with
                    | false => rfl
                    | true =>
                      exact absurd (show tagHere p c b0 t2 = true by
                        simp [tagHere, hip, hp, hnw]) (by simp [hm0])
                  cases t2 with
                  | nil => simp [nonWordHead] at hnwh
                  | cons e t3 =>
                    have hwe : wordChar e = true := by simpa [nonWordHead] using hnwh
                    have hwse : isWs e = false := by
                      cases hws : isWs e with
                      | false => rfl
                      | true => exact absurd (ws_not_word hws) (by simp [hwe])
                    rw [collapseWs_cons_not_ws t3 hwse] at hrr
                    rw [← hrr]
                    simp [tagHere, nonWordHead, hwe]
                · simp [tagHere, show nonWordOpt p = false from by simpa using hp]
          · simp [tagHere, show isTagPair c d = false from by simpa using hip]
        rw [hfirst, hsecond]
        rfl

/-- A nonempty right-strip keeps the head and strips the tail. -/
theorem rstrip_head {q : Char → Bool} {l : List Char} {d : Char} {r : List Char}
    (h : rstripP q l = d :: r) : ∃ t2, l = d :: t2 ∧ r = rstripP q t2 := by
  cases l with
  | nil => simp [rstripP] at h
  | cons a t =>
    by_cases hc : ((rstripP q t).isEmpty && q a) = true
    · rw [show rstripP q (a :: t) = [] from by simp [rstripP]; simp_all] at h
      simp at h
    · rw [show rstripP q (a :: t) = a :: rstripP q t from by
        simp only [rstripP]; rw [if_neg (by simpa using hc)]] at h
      injection h with h1 h2
      exact ⟨t, by rw [h1], h2.symm⟩

/-- The right-strip yields the empty list only when every element satisfies
the predicate. -/
theorem rstrip_eq_nil {q : Char → Bool} : ∀ {l : List Char},
    rstripP q l = [] → ∀ x ∈ l, q x = true := by
  intro l
  induction l with
  | nil => intro _ x hx; simp at hx
  | cons a t ih =>
    intro h x hx
    by_cases hc : ((rstripP q t).isEmpty && q a) = true
    · rw [Bool.and_eq_true, List.isEmpty_iff] at hc
      rcases List.mem_cons.mp hx with rfl | hx2
      · exact hc.2
      · exact ih hc.1 x hx2
    · rw [show rstripP q (a :: t) = a :: rstripP q t from by
        simp only [rstripP]; rw [if_neg (by simpa using hc)]] at h
      simp at h

/-- Stripping a trailing run of non-word characters cannot introduce a
standalone tag token. -/
theorem rstrip_no_tag {q : Char → Bool} (hq : ∀ c, q c = true → wordChar c = false) :
    ∀ (l : List Char) (p : Option Char),
    hasTag p l = false → hasTag p (rstripP q l) = false := by
  intro l
  induction l with
  | nil => intro p _; exact rfl
  | cons a t ih =>
    intro p h
    by_cases hc : ((rstripP q t).isEmpty && q a) = true
    · rw [show rstripP q (a :: t) = [] from by simp only [rstripP]; rw [if_pos hc]]
      rfl
    · rw [show rstripP q (a :: t) = a :: rstripP q t from by
        simp only [rstripP]; rw [if_neg (by simpa using hc)]]
      have hR : hasTag (some a) (rstripP q t) = false := ih (some a) (hasTag_tail h)
      cases hRc : rstripP q t with
      | nil => rfl
      | cons d r =>
        rw [show hasTag p (a :: d :: r) =
          (tagHere p a d r || hasTag (some a) (d :: r)) from rfl]
        have hsecond : hasTag (some a) (d :: r) = false := by rw [← hRc]; exact hR
        have hfirst : tagHere p a d r = false := by
          obtain ⟨t2, rfl, hr⟩ := rstrip_head hRc
          have hm0 : tagHere p a d t2 = false := by
            rw [show hasTag p (a :: d :: t2) =
              (tagHere p a d t2 || hasTag (some a) (d :: t2)) from rfl] at h
            exact (Bool.or_eq_false_iff.mp h).1
          by_cases hip : isTagPair a d = true
          · by_cases hp : nonWordOpt p = true
            · have hnwh : nonWordHead t2 = false := by
                cases hnw : nonWordHead t2 with
                | false => rfl
                | true =>
                  exact absurd (show tagHere p a d t2 = true by
                    simp [tagHere, hip, hp, hnw]) (by simp [hm0])
              cases t2 with
              | nil => simp [nonWordHead] at hnwh
              | cons e t3 =>
                have hwe : wordChar e = true := by simpa [nonWordHead] using hnwh
                have hqe : q e = false := by
                  cases hqe : q e with
                  | false => rfl
                  | true => exact absurd (hq e hqe) (by simp [hwe])
                have hrne : rstripP q (e :: t3) ≠ [] := by
                  intro hnil
                  have := rstrip_eq_nil hnil e (by simp)
                  simp [hqe] at this
                cases hre : rstripP q (e :: t3) with
                | nil => exact absurd hre hrne
                | cons d2 r2 =>
                  obtain ⟨t4, he, -⟩ := rstrip_head hre
                  injection he with he1 _
                  rw [hr, hre, ← he1]
                  simp [tagHere, nonWordHead, hwe]
            · simp [tagHere, show nonWordOpt p = false from by simpa using hp]
          · simp [tagHere, show isTagPair a d = false from by simpa using hip]
        rw [hfirst, hsecond]
        rfl

/-- Stripping a leading run of non-word characters cannot introduce a
standalone tag token (stated for the start-of-string context). -/
theorem dropWhile_no_tag {q : Char → Bool} (hq : ∀ c, q c = true → wordChar c = false) :
    ∀ l : List Char, hasTag none l = false → hasTag none (l.dropWhile q) = false := by
  intro l
  induction l with
  | nil => intro _; exact rfl
  | cons a t ih =>
    intro h
    by_cases hqa : q a = true
    · rw [List.dropWhile_cons_of_pos hqa]
      have ht : hasTag (some a) t = false := hasTag_tail h
      have ht0 : hasTag none t = false := by
        rw [hasTag_prev_congr t (show nonWordOpt (none : Option Char) = nonWordOpt (some a)
          from by simp [nonWordOpt, hq a hqa])]
        exact ht
      exact ih ht0
    · rw [List.dropWhile_cons_of_neg hqa]
      exact h

/-- The last element (via `getLast?`) is a member. -/
theorem getLast?_mem_list {α : Type} : ∀ {l : List α} {x : α},
    l.getLast? = some x → x ∈ l := by
  intro l
  induction l with
  | nil => intro x h; simp at h
  | cons a t ih =>
    intro x h
    cases t with
    | nil =>
      rw [List.getLast?_singleton] at h
      injection h with h1
      simp [h1]
    | cons b t2 =>
      rw [List.getLast?_cons_cons] at h
      exact List.mem_cons_of_mem a (ih h)

/-- The tail of an adjacency-free list is adjacency-free. -/
theorem noAdj_tail {a : Char} {t : List Char} (h : noAdjWs (a :: t) = true) :
    noAdjWs t = true := by
  cases t with
  | nil => rfl
  | cons b t2 =>
    rw [show noAdjWs (a :: b :: t2) =
      ((!(isWs a && isWs b)) && noAdjWs (b :: t2)) from rfl,
      Bool.and_eq_true] at h
    exact h.2

/-- The output of the whitespace collapse has no two adjacent whitespace
characters. -/
theorem collapseWs_noAdj : ∀ l : List Char, noAdjWs (collapseWs l) = true := by
  intro l
  induction l with
  | nil => rfl
  | cons c t ih =>
    rw [collapseWs_cons]
    by_cases hwc : isWs c = true
    · cases hXc : collapseWs t with
      | nil => rw [show collapseStep c [] = [c] from by simp [collapseStep, hwc]]; rfl
      | cons d r =>
        have hXadj : noAdjWs (d :: r) = true := by rw [← hXc]; exact ih
        by_cases hwd : isWs d = true
        · rw [show collapseStep c (d :: r) = ' ' :: r from by simp [collapseStep, hwc, hwd]]
          cases r with
          | nil => rfl
          | cons e r2 =>
            rw [show noAdjWs (d :: e :: r2) =
              ((!(isWs d && isWs e)) && noAdjWs (e :: r2)) from rfl,
              Bool.and_eq_true] at hXadj
            have he : isWs e = false := by
              cases hwe : isWs e with
              | false => rfl
              | true => rw [hwd, hwe] at hXadj; simp at hXadj
            rw [show noAdjWs (' ' :: e :: r2) =
              ((!(isWs ' ' && isWs e)) && noAdjWs (e :: r2)) from rfl]
            simp [he, hXadj.2]
        · have hdf : isWs d = false := by simpa using hwd
          rw [show collapseStep c (d :: r) = c :: d :: r
            from by simp [collapseStep, hwc, hdf]]
          rw [show noAdjWs (c :: d :: r) =
            ((!(isWs c && isWs d)) && noAdjWs (d :: r)) from rfl]
          simp [hdf, hXadj]
    · have hcf : isWs c = false := by simpa using hwc
      rw [show collapseStep c (collapseWs t) = c :: collapseWs t
        from by simp [collapseStep, hcf]]
      cases hXc : collapseWs t with
      | nil => rfl
      | cons d r =>
        have hXadj : noAdjWs (d :: r) = true := by rw [← hXc]; exact ih
        rw [show noAdjWs (c :: d :: r) =
          ((!(isWs c && isWs d)) && noAdjWs (d :: r)) from rfl]
        simp [hcf, hXadj]

/-- Dropping a prefix keeps the list adjacency-free. -/
theorem dropWhile_noAdj (q : Char → Bool) : ∀ l : List Char,
    noAdjWs l = true → noAdjWs (l.dropWhile q) = true := by
  intro l
  induction l with
  | nil => intro h; exact h
  | cons a t ih =>
    intro h
    by_cases hqa : q a = true
    · rw [List.dropWhile_cons_of_pos hqa]; exact ih (noAdj_tail h)
    · rw [List.dropWhile_cons_of_neg (by simpa using hqa)]; exact h

/-- Dropping a suffix keeps the list adjacency-free. -/
theorem rstrip_noAdj (q : Char → Bool) : ∀ l : List Char,
    noAdjWs l = true → noAdjWs (rstripP q l) = true := by
  intro l
  induction l with
  | nil => intro h; exact h
  | cons a t ih =>
    intro h
    by_cases hc : ((rstripP q t).isEmpty && q a) = true
    · rw [show rstripP q (a :: t) = [] from by simp only [rstripP]; rw [if_pos hc]]; rfl
    · rw [show rstripP q (a :: t) = a :: rstripP q t from by
        simp only [rstripP]; rw [if_neg (by simpa using hc)]]
      have hR : noAdjWs (rstripP q t) = true := ih (noAdj_tail h)
      cases hRc : rstripP q t with
      | nil => rfl
      | cons d r =>
        obtain ⟨t2, rfl, -⟩ := rstrip_head hRc
        rw [show noAdjWs (a :: d :: t2) =
          ((!(isWs a && isWs d)) && noAdjWs (d :: t2)) from rfl,
          Bool.and_eq_true] at h
        rw [hRc] at hR
        rw [show noAdjWs (a :: d :: r) =
          ((!(isWs a && isWs d)) && noAdjWs (d :: r)) from rfl]
        rw [h.1, hR]
        rfl

/-- The whitespace collapse is the identity on adjacency-free lists. -/
theorem collapseWs_id_of_noAdj : ∀ l : List Char,
    noAdjWs l = true → collapseWs l = l := by
  intro l
  induction l with
  | nil => intro _; rfl
  | cons c t ih =>
    intro h
    rw [collapseWs_cons, ih (noAdj_tail h)]
    by_cases hwc : isWs c = true
    · cases t with
      | nil => simp [collapseStep, hwc]
      | cons d t2 =>
        rw [show noAdjWs (c :: d :: t2) =
          ((!(isWs c && isWs d)) && noAdjWs (d :: t2)) from rfl,
          Bool.and_eq_true] at h
        have hd : isWs d = false := by
          cases hwd : isWs d with
          | false => rfl
          | true => rw [hwc, hwd] at h; simp at h
        simp [collapseStep, hwc, hd]
    · simp [collapseStep, show isWs c = false from by simpa using hwc]

/-- The head surviving `dropWhile` fails the predicate. -/
theorem dropWhile_head_not {q : Char → Bool} : ∀ {l : List Char} {d : Char} {r : List Char},
    l.dropWhile q = d :: r → q d = false := by
  intro l
  induction l with
  | nil => intro d r h; simp at h
  | cons a t ih =>
    intro d r h
    by_cases hqa : q a = true
    · rw [List.dropWhile_cons_of_pos hqa] at h; exact ih h
    · rw [List.dropWhile_cons_of_neg (by simpa using hqa)] at h
      injection h with h1 _
      rw [← h1]
      simpa using hqa

/-- The last element surviving the right-strip fails the predicate. -/
theorem rstrip_getLast {q : Char → Bool} : ∀ {l : List Char} {x : Char},
    (rstripP q l).getLast? = some x → q x = false := by
  intro l
  induction l with
  | nil => intro x h; simp [rstripP] at h
  | cons a t ih =>
    intro x h
    by_cases hc : ((rstripP q t).isEmpty && q a) = true
    · rw [show rstripP q (a :: t) = [] from by simp only [rstripP]; rw [if_pos hc]] at h
      simp at h
    · rw [show rstripP q (a :: t) = a :: rstripP q t from by
        simp only [rstripP]; rw [if_neg (by simpa using hc)]] at h
      cases hRc : rstripP q t with
      | nil =>
        rw [hRc, List.getLast?_singleton] at h
        injection h with h1
        rw [← h1]
        cases hqa : q a with
        | false => rfl
        | true =>
          exact absurd (show ((rstripP q t).isEmpty && q a) = true from by
            simp [hRc, hqa]) hc
      | cons d r =>
        rw [hRc, List.getLast?_cons_cons, ← hRc] at h
        exact ih h

/-- The right-strip is the identity when the last element fails the
predicate. -/
theorem rstrip_id {q : Char → Bool} : ∀ {l : List Char},
    (∀ x, l.getLast? = some x → q x = false) → rstripP q l = l := by
  intro l
  induction l with
  | nil => intro _; rfl
  | cons a t ih =>
    intro h
    cases t with
    | nil =>
      have hqa : q a = false := h a (by simp)
      simp [rstripP, hqa]
    | cons b t2 =>
      have ht : rstripP q (b :: t2) = b :: t2 :=
        ih (fun x hx => h x (by rw [List.getLast?_cons_cons]; exact hx))
      rw [show rstripP q (a :: b :: t2) =
        (if ((rstripP q (b :: t2)).isEmpty && q a) = true then []
         else a :: rstripP q (b :: t2)) from rfl]
      rw [ht]
      simp

/-- The right-strip produces a sublist. -/
theorem rstrip_sublist (q : Char → Bool) : ∀ l : List Char, (rstripP q l).Sublist l := by
  intro l
  induction l with
  | nil => simp [rstripP]
  | cons a t ih =>
    by_cases hc : ((rstripP q t).isEmpty && q a) = true
    · rw [show rstripP q (a :: t) = [] from by simp only [rstripP]; rw [if_pos hc]]
      exact List.nil_sublist _
    · rw [show rstripP q (a :: t) = a :: rstripP q t from by
        simp only [rstripP]; rw [if_neg (by simpa using hc)]]
      exact List.Sublist.cons₂ a ih

/-- The tag deletion produces a sublist. -/
theorem tagSub_sublist : ∀ (n : Nat) (p : Option Char) (l : List Char),
    l.length ≤ n → (tagSub p l).Sublist l := by
  intro n
  induction n with
  | zero =>
    intro p l hl
    cases l with
    | nil => simp [tagSub]
    | cons a t => simp at hl
  | succ n ihn =>
    intro p l hl
    match l with
    | [] => simp [tagSub]
    | [a] => simp [tagSub]
    | a :: b :: t =>
      by_cases hm : tagHere p a b t = true
      · rw [show tagSub p (a :: b :: t) = tagSub (some b) t from by simp [tagSub, hm]]
        exact (ihn (some b) t (by simp at hl ⊢; omega)).trans
          ((List.sublist_cons_self b t).trans (List.sublist_cons_self a (b :: t)))
      · rw [show tagSub p (a :: b :: t) = a :: tagSub (some a) (b :: t)
          from by simp [tagSub, hm]]
        exact List.Sublist.cons₂ a (ihn (some a) (b :: t) (by simp at hl ⊢; omega))

/-- An `all` fact transfers to any sublist. -/
theorem all_of_sublist {q : Char → Bool} {l1 l2 : List Char}
    (hs : l1.Sublist l2) (h : l2.all q = true) : l1.all q = true := by
  rw [List.all_eq_true] at h ⊢
  exact fun x hx => h x (hs.subset hx)

/-- The whitespace collapse preserves an `all` fact that holds of the
space character. -/
theorem collapseWs_all {q : Char → Bool} (hsp : q ' ' = true) : ∀ l : List Char,
    l.all q = true → (collapseWs l).all q = true := by
  intro l
  induction l with
  | nil => intro h; exact h
  | cons c t ih =>
    intro h
    rw [List.all_cons, Bool.and_eq_true] at h
    have hX := ih h.2
    rw [collapseWs_cons]
    by_cases hwc : isWs c = true
    · cases hXc : collapseWs t with
      | nil =>
        rw [show collapseStep c [] = [c] from by simp [collapseStep, hwc]]
        simp [List.all_cons, h.1]
      | cons d r =>
        rw [hXc] at hX
        rw [List.all_cons, Bool.and_eq_true] at hX
        by_cases hwd : isWs d = true
        · rw [show collapseStep c (d :: r) = ' ' :: r from by simp [collapseStep, hwc, hwd]]
          simp [List.all_cons, hsp, hX.2]
        · rw [show collapseStep c (d :: r) = c :: d :: r
            from by simp [collapseStep, hwc, show isWs d = false from by simpa using hwd]]
          simp [List.all_cons, h.1, hX.1, hX.2]
    · rw [show collapseStep c (collapseWs t) = c :: collapseWs t
        from by simp [collapseStep, show isWs c = false from by simpa using hwc]]
      simp [List.all_cons, h.1, hX]

/-- The cleaner fixes any string that is already fully cleaned: tag-free, no
adjacent whitespace, and no separator or whitespace at either end. -/
theorem clean_fixed (l : List Char)
    (hnotag : hasTag none l = false)
    (hnoadj : noAdjWs l = true)
    (hhead : ∀ d r, l = d :: r → isSep d = false ∧ isWs d = false)
    (hlast : ∀ y, l.getLast? = some y → isSep y = false ∧ isWs y = false) :
    clean_value_remove_tags (String.mk l) = String.mk l := by
  by_cases hnil : l = []
  · subst hnil; rfl
  · have hstrip : stripWs l = l := by
      unfold stripWs
      have hdw : l.dropWhile isWs = l := by
        cases hl : l with
        | nil => rfl
        | cons d r => rw [List.dropWhile_cons_of_neg (by simp [(hhead d r hl).2])]
      rw [hdw]
      exact rstrip_id (fun y hy => (hlast y hy).2)
    have hss : stripSep l = l := by
      unfold stripSep
      have hdw : l.dropWhile isSep = l := by
        cases hl : l with
        | nil => rfl
        | cons d r => rw [List.dropWhile_cons_of_neg (by simp [(hhead d r hl).1])]
      rw [hdw]
      exact rstrip_id (fun y hy => (hlast y hy).1)
    simp only [clean_value_remove_tags]
    rw [hstrip]
    rw [if_neg (by simpa [List.isEmpty_iff] using hnil)]
    rw [tagSub_id_of_no_tag l.length none l (le_refl _) hnotag]
    rw [collapseWs_id_of_noAdj l hnoadj]
    rw [hss]
    rw [collapseWs_id_of_noAdj l hnoadj]
    rw [hstrip]

/-- The cleaner's output never contains a standalone PR/IN token. -/
theorem clean_no_tag (x : String) :
    hasTag none (clean_value_remove_tags x).data = false := by
  by_cases hs : (stripWs x.data).isEmpty = true
  · rw [show clean_value_remove_tags x = "" from by
      simp only [clean_value_remove_tags]; rw [if_pos hs]]
    rfl
  · rw [show clean_value_remove_tags x = String.mk (stripWs (collapseWs (stripSep
      (collapseWs (tagSub none (stripWs x.data)))))) from by
        simp only [clean_value_remove_tags]; rw [if_neg hs]]
    show hasTag none (stripWs (collapseWs (stripSep
      (collapseWs (tagSub none (stripWs x.data)))))) = false
    unfold stripWs stripSep
    exact rstrip_no_tag (fun c hc => ws_not_word hc) _ none
      (dropWhile_no_tag (fun c hc => ws_not_word hc) _
        (collapseWs_no_tag _ none
          (rstrip_no_tag (fun c hc => sep_not_word hc) _ none
            (dropWhile_no_tag (fun c hc => sep_not_word hc) _
              (collapseWs_no_tag _ none
                (tagSub_no_tag _ none _ (le_refl _)))))))

/-- The whitespace strip is the identity when neither end is whitespace. -/
theorem stripWs_id {l : List Char}
    (hhead : ∀ d r, l = d :: r → isWs d = false)
    (hlast : ∀ y, l.getLast? = some y → isWs y = false) : stripWs l = l := by
  unfold stripWs
  have hdw : l.dropWhile isWs = l := by
    cases hl : l with
    | nil => rfl
    | cons d r => rw [List.dropWhile_cons_of_neg (by simp [hhead d r hl])]
  rw [hdw]
  exact rstrip_id hlast

/-- In a list whose whitespace is only plain spaces, an element that is not
a separator is not whitespace either (the space is a separator). -/
theorem ws_of_space_only {l : List Char}
    (hall : l.all (fun c => !isWs c || c = ' ') = true) :
    ∀ d ∈ l, isSep d = false → isWs d = false := by
  intro d hd hsep
  cases hws : isWs d with
  | false => rfl
  | true =>
    have hq := List.all_eq_true.mp hall d hd
    rw [hws] at hq
    simp only [Bool.not_true, Bool.false_or, decide_eq_true_eq] at hq
    rw [hq] at hsep
    exact absurd hsep (by decide)

/-- Counterexample to claim C5: the cleaner is not idempotent.  In
"a)\tPR" the tab is not in the separator-strip set, so the first pass stops
stripping at the tab and leaves "a)"; the second pass then strips the
")". -/
theorem c5_idempotent_counterexample :
    clean_value_remove_tags "a)\tPR" = "a)" ∧
    clean_value_remove_tags (clean_value_remove_tags "a)\tPR") = "a" ∧
    clean_value_remove_tags (clean_value_remove_tags "a)\tPR") ≠
      clean_value_remove_tags "a)\tPR" := by decide

/-- Claim C5 (amended): the cleaner's result never contains a standalone
administrative tag token (PR or IN as a word-bounded token), and the cleaner
is idempotent on every input whose whitespace consists of plain spaces only
(idempotence fails in general: see the tab counterexample). -/
theorem c5_clean_idempotent_amended : ∀ x : String,
    hasTag none (clean_value_remove_tags x).data = false ∧
    (onlySpaceWs x.data = true →
      clean_value_remove_tags (clean_value_remove_tags x) = clean_value_remove_tags x) := by
  intro x
  refine ⟨clean_no_tag x, ?_⟩
  intro hx
  by_cases hs : (stripWs x.data).isEmpty = true
  · rw [show clean_value_remove_tags x = "" from by
      simp only [clean_value_remove_tags]; rw [if_pos hs]]
    rfl
  · have hosx : x.data.all (fun c => !isWs c || c = ' ') = true := hx
    -- the space-only property propagates down the pipeline
    have hosS : (stripWs x.data).all (fun c => !isWs c || c = ' ') = true := by
      unfold stripWs
      exact all_of_sublist ((rstrip_sublist isWs _).trans (List.dropWhile_sublist _)) hosx
    have hos1 : (tagSub none (stripWs x.data)).all (fun c => !isWs c || c = ' ') = true :=
      all_of_sublist (tagSub_sublist _ none _ (le_refl _)) hosS
    have hos2 : (collapseWs (tagSub none (stripWs x.data))).all
        (fun c => !isWs c || c = ' ') = true :=
      collapseWs_all (by decide) _ hos1
    have hos3 : (rstripP isSep ((collapseWs (tagSub none (stripWs x.data))).dropWhile
        isSep)).all (fun c => !isWs c || c = ' ') = true :=
      all_of_sublist (rstrip_sublist isSep _)
        (all_of_sublist (List.dropWhile_sublist _) hos2)
    -- no standalone tag in the stripped middle of the pipeline
    have hnotag3 : hasTag none (rstripP isSep ((collapseWs (tagSub none
        (stripWs x.data))).dropWhile isSep)) = false :=
      rstrip_no_tag (fun c hc => sep_not_word hc) _ none
        (dropWhile_no_tag (fun c hc => sep_not_word hc) _
          (collapseWs_no_tag _ none
            (tagSub_no_tag _ none _ (le_refl _))))
    -- no adjacent whitespace
    have hnoadj3 : noAdjWs (rstripP isSep ((collapseWs (tagSub none
        (stripWs x.data))).dropWhile isSep)) = true :=
      rstrip_noAdj isSep _ (dropWhile_noAdj isSep _ (collapseWs_noAdj _))
    -- ends of the separator-stripped list
    have hhead3 : ∀ d r, rstripP isSep ((collapseWs (tagSub none
        (stripWs x.data))).dropWhile isSep) = d :: r →
        isSep d = false ∧ isWs d = false := by
      intro d r h3
      obtain ⟨t2, hw2, -⟩ := rstrip_head h3
      have hsep : isSep d = false := dropWhile_head_not hw2
      refine ⟨hsep, ws_of_space_only hos3 d ?_ hsep⟩
      rw [h3]
      simp
    have hlast3 : ∀ y, (rstripP isSep ((collapseWs (tagSub none
        (stripWs x.data))).dropWhile isSep)).getLast? = some y →
        isSep y = false ∧ isWs y = false := by
      intro y hy
      have hsep : isSep y = false := rstrip_getLast hy
      exact ⟨hsep, ws_of_space_only hos3 y (getLast?_mem_list hy) hsep⟩
    -- the first pass produces exactly the separator-stripped middle
    have hclean : clean_value_remove_tags x = String.mk (rstripP isSep ((collapseWs
        (tagSub none (stripWs x.data))).dropWhile isSep)) := by
      simp only [clean_value_remove_tags]
      rw [if_neg hs]
      show String.mk (stripWs (collapseWs (stripSep (collapseWs (tagSub none
        (stripWs x.data)))))) = _
      unfold stripSep
      rw [collapseWs_id_of_noAdj _ hnoadj3]
      rw [stripWs_id (fun d r h => (hhead3 d r h).2) (fun y hy => (hlast3 y hy).2)]
    rw [hclean]
    exact clean_fixed _ hnotag3 hnoadj3 hhead3 hlast3

/-- Witness for C5 on a plain-space input. -/
theorem c5_clean_idempotent_witness :
    clean_value_remove_tags (clean_value_remove_tags "8 PR") =
      clean_value_remove_tags "8 PR" :=
  (c5_clean_idempotent_amended "8 PR").2 (by decide)
